import Mathlib

/-!
Verification of the Catipedia build and deployment scripts.

The development shallowly embeds the two scripts of the repository:
the build script (class BuildManager: cleaning, static copying, CSS/JS
minification, content-hash generation) and the deployment script
(class DeploymentManager: environment selection, pre-deployment checks,
build, tests, deployment). JavaScript strings are modelled as List Char,
file bytes as List Nat, paths as lists of name segments, and the
filesystem effects of each routine as explicit state passing. External
processes invoked by the deployment script are modelled by an oracle
record holding the outcome of each command, and a run produces the
trace of stages entered, commands executed and warnings printed.
-/

namespace Catipedia

/-! ### Character classes used by the regular expressions of the minifiers -/

/-- Opening curly brace character. -/
def braceOpen : Char := Char.ofNat 123

/-- Closing curly brace character. -/
def braceClose : Char := Char.ofNat 125

/-- Code points of the JavaScript regex class backslash-s outside the
contiguous space separator range: space, tab, line feed, vertical tab,
form feed, carriage return, NBSP, ogham space, the line separators,
narrow NBSP, mathematical space, ideographic space and the BOM. -/
def jsWsCodes : List Nat :=
  [32, 9, 10, 11, 12, 13, 160, 5760, 8232, 8233, 8239, 8287, 12288, 65279]

/-- The JavaScript regex class backslash-s: whitespace characters,
including the contiguous range of Unicode space separators. -/
def isJsWs (c : Char) : Bool :=
  jsWsCodes.contains c.toNat || (8192 ≤ c.toNat && c.toNat ≤ 8202)

/-- Code points of the JavaScript line terminators, which the dot of a
regex does not match: line feed, carriage return and the two line
separator characters. -/
def lineTermCodes : List Nat := [10, 13, 8232, 8233]

/-- JavaScript line terminators. -/
def isLineTerm (c : Char) : Bool := lineTermCodes.contains c.toNat

/-- Skip leading whitespace: the greedy backslash-s-star of a regex. -/
def skipWs (l : List Char) : List Char := l.dropWhile isJsWs

/-- Skip to the end of the current line: the greedy dot-star of a regex. -/
def skipToLineEnd (l : List Char) : List Char :=
  l.dropWhile (fun c => !isLineTerm c)

/-! ### The substitution passes of BuildManager.minifyCSS and minifyJS

Each global regex replacement of the source is embedded as a left to
right scan that applies the leftmost match, emits the replacement and
resumes after the match, which is the semantics of String.prototype.replace
with the g flag. -/

/-- Scan for the closing star-slash of a block comment; some tail means the
first closing delimiter was found, none means the comment is unterminated. -/
def dropToClose : List Char → Option (List Char)
  | [] => none
  | [_] => none
  | c1 :: c2 :: rest =>
    if c1 = '*' ∧ c2 = '/' then some rest else dropToClose (c2 :: rest)

/-- Removal of slash-star block comments, the first substitution of both
minifiers. A slash-star with no later closing delimiter is not a match and
the remainder of the text is kept unchanged, as in the lazy regex. -/
def removeBlockComments : List Char → List Char
  | [] => []
  | '/' :: '*' :: rest =>
    match h : dropToClose rest with
    | some rest2 => removeBlockComments rest2
    | none => '/' :: '*' :: rest
  | c :: rest => c :: removeBlockComments rest
termination_by l => l.length
decreasing_by
  · have key : ∀ (l l2 : List Char), dropToClose l = some l2 → l2.length + 2 ≤ l.length := by
      intro l
      induction l using dropToClose.induct with
      | case1 => intro l2 hh; simp [dropToClose] at hh
      | case2 c => intro l2 hh; simp [dropToClose] at hh
      | case3 c1 c2 r hcond =>
        intro l2 hh
        simp only [dropToClose] at hh
        rw [if_pos hcond] at hh
        cases hh
        simp
      | case4 c1 c2 r hcond ih =>
        intro l2 hh
        simp only [dropToClose] at hh
        rw [if_neg hcond] at hh
        have := ih l2 hh
        simp only [List.length_cons] at this ⊢
        omega
    have := key rest rest2 h
    simp only [List.length_cons]
    omega
  · simp

/-- Removal of double-slash line comments, used only by minifyJS. The dot
of the regex stops at a line terminator, so the terminator itself is kept. -/
def removeLineComments : List Char → List Char
  | [] => []
  | '/' :: '/' :: rest => removeLineComments (skipToLineEnd rest)
  | c :: rest => c :: removeLineComments rest
termination_by l => l.length
decreasing_by
  · simp only [List.length_cons, skipToLineEnd]
    have := (List.dropWhile_sublist (l := rest) (fun c => !isLineTerm c)).length_le
    omega
  · simp

/-- Collapse every whitespace run to a single space: the backslash-s-plus
to single space substitution shared by both minifiers. -/
def collapseWs : List Char → List Char
  | [] => []
  | c :: rest =>
    if isJsWs c then ' ' :: collapseWs (skipWs rest)
    else c :: collapseWs rest
termination_by l => l.length
decreasing_by
  · simp only [List.length_cons, skipWs]
    have := (List.dropWhile_sublist (l := rest) isJsWs).length_le
    omega
  · simp

/-- Whether a text starts with optional whitespace followed by a closing
brace, the lookahead needed for the semicolon-before-brace substitution. -/
def wsThenClose (l : List Char) : Bool :=
  match skipWs l with
  | c :: _ => c = braceClose
  | [] => false

/-- The tail after the whitespace and the closing brace. -/
def afterWsClose (l : List Char) : List Char :=
  (skipWs l).drop 1

/-- The semicolon-whitespace-closing-brace to closing-brace substitution,
shared by both minifiers. -/
def semiBraceClean : List Char → List Char
  | [] => []
  | c :: rest =>
    if c = ';' then
      if wsThenClose rest then braceClose :: semiBraceClean (afterWsClose rest)
      else ';' :: semiBraceClean rest
    else c :: semiBraceClean rest
termination_by l => l.length
decreasing_by
  · simp only [List.length_cons, afterWsClose, skipWs]
    have h1 := (List.dropWhile_sublist (l := rest) isJsWs).length_le
    have h2 := List.length_drop 1 (rest.dropWhile isJsWs)
    omega
  · simp
  · simp

/-- Whether a text starts with optional whitespace followed by an opening
brace, the lookahead for the brace cleanup substitution. -/
def wsThenBrace (l : List Char) : Bool :=
  match skipWs l with
  | c :: _ => c = braceOpen
  | [] => false

/-- The tail after the whitespace, the opening brace and the whitespace
following it. -/
def afterWsBrace (l : List Char) : List Char :=
  skipWs ((skipWs l).drop 1)

/-- The whitespace-brace-whitespace to opening-brace substitution of
minifyCSS. -/
def braceClean : List Char → List Char
  | [] => []
  | c :: rest =>
    if c = braceOpen then braceOpen :: braceClean (skipWs rest)
    else if isJsWs c then
      if wsThenBrace rest then braceOpen :: braceClean (afterWsBrace rest)
      else c :: braceClean rest
    else c :: braceClean rest
termination_by l => l.length
decreasing_by
  · simp only [List.length_cons, skipWs]
    have := (List.dropWhile_sublist (l := rest) isJsWs).length_le
    omega
  · simp only [List.length_cons, afterWsBrace, skipWs]
    have h1 := (List.dropWhile_sublist (l := rest) isJsWs).length_le
    have h2 := List.length_drop 1 (rest.dropWhile isJsWs)
    have h3 := (List.dropWhile_sublist (l := (rest.dropWhile isJsWs).drop 1) isJsWs).length_le
    omega
  · simp
  · simp

/-- The semicolon-whitespace to semicolon substitution of minifyCSS. -/
def semiClean : List Char → List Char
  | [] => []
  | c :: rest =>
    if c = ';' then ';' :: semiClean (skipWs rest)
    else c :: semiClean rest
termination_by l => l.length
decreasing_by
  · simp only [List.length_cons, skipWs]
    have := (List.dropWhile_sublist (l := rest) isJsWs).length_le
    omega
  · simp

/-- The final trim call: whitespace stripped from both ends. -/
def trimChars (l : List Char) : List Char :=
  List.rdropWhile isJsWs (skipWs l)

/-- Embedding of BuildManager.minifyCSS: comments removed, whitespace
collapsed, unnecessary semicolons removed, braces cleaned, semicolons
cleaned, then trimmed, in source order. -/
def minifyCSS (css : List Char) : List Char :=
  trimChars (semiClean (braceClean (semiBraceClean (collapseWs (removeBlockComments css)))))

/-- Embedding of BuildManager.minifyJS: block comments removed, line
comments removed, whitespace collapsed, semicolons before braces cleaned,
then trimmed, in source order. -/
def minifyJS (js : List Char) : List Char :=
  trimChars (semiBraceClean (collapseWs (removeLineComments (removeBlockComments js))))

/-! ### MD5, the cryptographic hash invoked through crypto.createHash -/

/-- Truncation to a 32 bit word. -/
def mask32 (n : Nat) : Nat := n % 4294967296

/-- Bitwise complement within 32 bits. -/
def not32 (x : Nat) : Nat := Nat.xor 4294967295 x

/-- Left rotation of a 32 bit word. -/
def rotl32 (x s : Nat) : Nat :=
  mask32 (Nat.lor (Nat.shiftLeft x s) (Nat.shiftRight x (32 - s)))

/-- The 64 sine derived round constants of MD5. -/
def md5K : List Nat :=
  [0xd76aa478, 0xe8c7b756, 0x242070db, 0xc1bdceee, 0xf57c0faf, 0x4787c62a, 0xa8304613, 0xfd469501,
   0x698098d8, 0x8b44f7af, 0xffff5bb1, 0x895cd7be, 0x6b901122, 0xfd987193, 0xa679438e, 0x49b40821,
   0xf61e2562, 0xc040b340, 0x265e5a51, 0xe9b6c7aa, 0xd62f105d, 0x02441453, 0xd8a1e681, 0xe7d3fbc8,
   0x21e1cde6, 0xc33707d6, 0xf4d50d87, 0x455a14ed, 0xa9e3e905, 0xfcefa3f8, 0x676f02d9, 0x8d2a4c8a,
   0xfffa3942, 0x8771f681, 0x6d9d6122, 0xfde5380c, 0xa4beea44, 0x4bdecfa9, 0xf6bb4b60, 0xbebfbc70,
   0x289b7ec6, 0xeaa127fa, 0xd4ef3085, 0x04881d05, 0xd9d4d039, 0xe6db99e5, 0x1fa27cf8, 0xc4ac5665,
   0xf4292244, 0x432aff97, 0xab9423a7, 0xfc93a039, 0x655b59c3, 0x8f0ccc92, 0xffeff47d, 0x85845dd1,
   0x6fa87e4f, 0xfe2ce6e0, 0xa3014314, 0x4e0811a1, 0xf7537e82, 0xbd3af235, 0x2ad7d2bb, 0xeb86d391]

/-- The per round left rotation amounts of MD5. -/
def md5S : List Nat :=
  [7, 12, 17, 22, 7, 12, 17, 22, 7, 12, 17, 22, 7, 12, 17, 22,
   5, 9, 14, 20, 5, 9, 14, 20, 5, 9, 14, 20, 5, 9, 14, 20,
   4, 11, 16, 23, 4, 11, 16, 23, 4, 11, 16, 23, 4, 11, 16, 23,
   6, 10, 15, 21, 6, 10, 15, 21, 6, 10, 15, 21, 6, 10, 15, 21]

/-- The nonlinear mixing function of each MD5 round group. -/
def md5F (i b c d : Nat) : Nat :=
  if i < 16 then Nat.lor (Nat.land b c) (Nat.land (not32 b) d)
  else if i < 32 then Nat.lor (Nat.land d b) (Nat.land (not32 d) c)
  else if i < 48 then Nat.xor b (Nat.xor c d)
  else Nat.xor c (Nat.lor b (not32 d))

/-- The message word index used in round i. -/
def md5G (i : Nat) : Nat :=
  if i < 16 then i
  else if i < 32 then (5 * i + 1) % 16
  else if i < 48 then (3 * i + 5) % 16
  else (7 * i) % 16

/-- One MD5 round on the four word state. -/
def md5Op (M : Nat → Nat) (st : Nat × Nat × Nat × Nat) (i : Nat) : Nat × Nat × Nat × Nat :=
  let a := st.1
  let b := st.2.1
  let c := st.2.2.1
  let d := st.2.2.2
  let f := mask32 (md5F i b c d + a + md5K.getD i 0 + M (md5G i))
  (d, mask32 (b + rotl32 f (md5S.getD i 0)), b, c)

/-- Little endian 32 bit word j of a 64 byte chunk. -/
def word32LE (chunk : List Nat) (j : Nat) : Nat :=
  chunk.getD (4 * j) 0 % 256 + 256 * (chunk.getD (4 * j + 1) 0 % 256) +
    65536 * (chunk.getD (4 * j + 2) 0 % 256) + 16777216 * (chunk.getD (4 * j + 3) 0 % 256)

/-- Process one 64 byte chunk: 64 rounds, then addition into the state. -/
def md5Chunk (st : Nat × Nat × Nat × Nat) (chunk : List Nat) : Nat × Nat × Nat × Nat :=
  let r := (List.range 64).foldl (md5Op (word32LE chunk)) st
  (mask32 (st.1 + r.1), mask32 (st.2.1 + r.2.1),
   mask32 (st.2.2.1 + r.2.2.1), mask32 (st.2.2.2 + r.2.2.2))

/-- The low bytes of a number, little endian, with the requested count. -/
def toLEBytes (count v : Nat) : List Nat :=
  match count with
  | 0 => []
  | k + 1 => v % 256 :: toLEBytes k (v / 256)

/-- MD5 padding: a 0x80 byte, zeros to 56 modulo 64, and the bit length
as a little endian 64 bit quantity. -/
def md5Pad (msg : List Nat) : List Nat :=
  let len := msg.length
  msg.map (· % 256) ++ [128] ++ List.replicate ((119 - len % 64) % 64) 0 ++ toLEBytes 8 (len * 8)

/-- Split a byte list into chunks of 64, with a structural fuel so that the
definition reduces inside the kernel. -/
def chunks64Go : Nat → List Nat → List (List Nat)
  | 0, _ => []
  | _, [] => []
  | fuel + 1, a :: l => ((a :: l).take 64) :: chunks64Go fuel ((a :: l).drop 64)

/-- Split a padded message into its 64 byte chunks. -/
def chunks64 (l : List Nat) : List (List Nat) := chunks64Go l.length l

/-- The four word MD5 state of a message. -/
def md5Words (msg : List Nat) : Nat × Nat × Nat × Nat :=
  (chunks64 (md5Pad msg)).foldl md5Chunk (0x67452301, 0xefcdab89, 0x98badcfe, 0x10325476)

/-- The sixteen digest bytes of MD5, little endian per word. -/
def md5Bytes (msg : List Nat) : List Nat :=
  let w := md5Words msg
  toLEBytes 4 w.1 ++ toLEBytes 4 w.2.1 ++ toLEBytes 4 w.2.2.1 ++ toLEBytes 4 w.2.2.2

/-- The lowercase hexadecimal digit of a value below sixteen: digits
from code point 48, letters from code point 97. -/
def hexChar (n : Nat) : Char :=
  if n < 10 then Char.ofNat (48 + n) else Char.ofNat (87 + n)

/-- The sixteen lowercase hexadecimal digits. -/
def hexDigits : List Char := (List.range 16).map hexChar

/-- The two hexadecimal digits of a byte, high digit first. -/
def byteHex (b : Nat) : List Char := [hexChar (b / 16 % 16), hexChar (b % 16)]

/-- The 32 character lowercase hexadecimal MD5 digest, as produced by
crypto digest hex in the build script. -/
def md5hex (msg : List Nat) : List Char := ((md5Bytes msg).map byteHex).flatten

/-- The first 8 hexadecimal characters of the digest: the substring zero
to eight taken in BuildManager.generateHashes. -/
def md5hex8 (msg : List Nat) : List Char := (md5hex msg).take 8

/-! ### Filesystem model for the build script

A directory is a list of named entries as returned by readdirSync with
file types; an entry is a file with byte content or a subdirectory.
Paths are lists of name segments relative to the directory where a walk
starts, so the path of a file reached as name n inside directory d is
the segment list d then n, the embedding of path.relative from the
output root. -/

/-- A filesystem entry: a file with its bytes, or a directory. -/
inductive FsEntry where
  | file (content : List Nat)
  | dir (entries : List (String × FsEntry))

mutual

/-- Well formed entry: every directory in it lists distinct names, the
readdirSync guarantee. -/
def wfEntry : FsEntry → Bool
  | FsEntry.file _ => true
  | FsEntry.dir es => wfEntries es

/-- Well formed directory listing: distinct names, entries well formed. -/
def wfEntries : List (String × FsEntry) → Bool
  | [] => true
  | (n, e) :: rest => !((rest.map Prod.fst).contains n) && wfEntry e && wfEntries rest

end

/-- Suffix test on strings, the embedding of String.prototype.endsWith. -/
def endsWithStr (s suffix : String) : Bool :=
  suffix.toList.isSuffixOf s.toList

/-- The file name filter of generateHashes: names ending in .css or .js. -/
def endsCssJs (n : String) : Bool :=
  endsWithStr n ".css" || endsWithStr n ".js"

/-- Every file under a directory tree, in the depth first readdirSync
order of the hashFiles walk, as triples of relative path, file name and
content. -/
def allFilesWalk : List String → List (String × FsEntry) → List (List String × String × List Nat)
  | _, [] => []
  | pre, (n, FsEntry.file c) :: rest => (pre ++ [n], n, c) :: allFilesWalk pre rest
  | pre, (n, FsEntry.dir es) :: rest => allFilesWalk (pre ++ [n]) es ++ allFilesWalk pre rest

/-- Embedding of the hashFiles closure of BuildManager.generateHashes:
walk the tree depth first and record, for every file whose name ends in
.css or .js, its relative path and the first 8 hex characters of the MD5
digest of its bytes. -/
def hashWalk : List String → List (String × FsEntry) → List (List String × List Char)
  | _, [] => []
  | pre, (n, FsEntry.file c) :: rest =>
    (if endsCssJs n then [(pre ++ [n], md5hex8 c)] else []) ++ hashWalk pre rest
  | pre, (n, FsEntry.dir es) :: rest => hashWalk (pre ++ [n]) es ++ hashWalk pre rest

/-- Embedding of BuildManager.generateHashes: outside production the
method returns without writing, modelled as none; in production it walks
the output tree and writes the hash map as hashes.json in the output
root, modelled as some map. -/
def generateHashes (isProduction : Bool) (dist : List (String × FsEntry)) :
    Option (List (List String × List Char)) :=
  if !isProduction then none else some (hashWalk [] dist)

/-! ### BuildManager.cleanBuild over the state of the output directory -/

/-- Embedding of fs.existsSync on the output directory path. -/
def existsSyncD (d : Option FsEntry) : Bool := d.isSome

/-- Embedding of fs.rmSync with recursive and force on the output
directory. -/
def rmSyncRF (_ : Option FsEntry) : Option FsEntry := none

/-- Embedding of fs.mkdirSync with recursive: creates an empty directory
when the path is free, leaves an existing directory unchanged, and fails
when a file occupies the path. -/
def mkdirSyncRec (d : Option FsEntry) : Except String (Option FsEntry) :=
  match d with
  | none => Except.ok (some (FsEntry.dir []))
  | some (FsEntry.dir es) => Except.ok (some (FsEntry.dir es))
  | some (FsEntry.file _) => Except.error "EEXIST"

/-- Embedding of BuildManager.cleanBuild: skipped when clean is disabled;
otherwise the directory is removed if it exists and recreated empty. -/
def cleanBuild (clean : Bool) (d : Option FsEntry) : Except String (Option FsEntry) :=
  if !clean then Except.ok d
  else mkdirSyncRec (if existsSyncD d then rmSyncRF d else d)

/-! ### BuildManager.copyStaticFiles over a flat name to content map -/

/-- A flat file store from path to byte content. -/
abbrev FileMap := String → Option (List Nat)

/-- Embedding of fs.existsSync on a flat store. -/
def existsSyncF (fs : FileMap) (p : String) : Bool := (fs p).isSome

/-- Embedding of fs.copyFileSync into the output map: fails when the
source is absent, otherwise writes the destination. -/
def copyFileSyncM (fs : FileMap) (src dest : String) (dist : FileMap) :
    Except String FileMap :=
  match fs src with
  | some content => Except.ok (fun p => if p = dest then some content else dist p)
  | none => Except.error "ENOENT"

/-- The loop of copyStaticFiles over a pair list: each pair is copied
only when its source exists. -/
def copyFilesList (fs : FileMap) : List (String × String) → FileMap → Except String FileMap
  | [], dist => Except.ok dist
  | (src, dest) :: rest, dist =>
    if existsSyncF fs src then
      match copyFileSyncM fs src dest dist with
      | Except.ok dist2 => copyFilesList fs rest dist2
      | Except.error e => Except.error e
    else copyFilesList fs rest dist

/-- The fixed source and destination pairs of copyStaticFiles. -/
def staticFiles : List (String × String) :=
  [("./index.html", "index.html"), ("./article.html", "article.html"),
   ("./compare.html", "compare.html"), ("./favicon.svg", "favicon.svg"),
   ("./manifest.json", "manifest.json"), ("./robots.txt", "robots.txt"),
   ("./sitemap.xml", "sitemap.xml")]

/-- Embedding of BuildManager.copyStaticFiles. -/
def copyStaticFiles (fs : FileMap) (dist : FileMap) : Except String FileMap :=
  copyFilesList fs staticFiles dist

/-- The pure result of the copy loop, used to state lookups. -/
def copyRun (fs : FileMap) : List (String × String) → FileMap → FileMap
  | [], dist => dist
  | (src, dest) :: rest, dist =>
    copyRun fs rest
      (match fs src with
       | some content => fun p => if p = dest then some content else dist p
       | none => dist)

/-! ### The production flag of the build CLI -/

/-- The production option of the build CLI: the long or the short flag. -/
def buildCliProduction (args : List String) : Bool :=
  args.contains "--production" || args.contains "-p"

/-- Embedding of the BuildManager constructor: production is enabled by
the CLI option or by NODE_ENV equal to production. -/
def buildIsProduction (args : List String) (nodeEnv : Option String) : Bool :=
  buildCliProduction args || nodeEnv == some "production"

/-! ### The deployment script

External processes are modelled by an oracle record and every run
produces a trace of stage entries, executed external commands and
printed warnings. -/

/-- The per environment configuration record of the deploy script. -/
structure EnvConfig where
  buildDir : String
  deployTarget : String
  branch : String
deriving DecidableEq

/-- Embedding of the CONFIG object of the deploy script. -/
def CONFIG (environment : String) : Option EnvConfig :=
  if environment = "development" then
    some ⟨"./dist", "dev.catipedia.com", "develop"⟩
  else if environment = "staging" then
    some ⟨"./dist", "staging.catipedia.com", "staging"⟩
  else if environment = "production" then
    some ⟨"./dist", "catipedia.com", "main"⟩
  else none

/-- An observable event of a deploy run. -/
inductive DeployEvent where
  | stage (name : String)
  | cmd (command : String)
  | warn (message : String)
deriving DecidableEq

/-- Whether an event is the execution of an external command. -/
def isCmdEvent : DeployEvent → Bool
  | DeployEvent.cmd _ => true
  | _ => false

/-- Oracle for the outside world of a deploy run: results of the git
queries, existence of files, and exit status of each external command.
A none git result models a failing git invocation. -/
structure DeployWorld where
  gitBranchResult : Option String
  gitStatusResult : Option String
  packageJsonExists : Bool
  npmCiOk : Bool
  npmBuildOk : Bool
  buildDirExists : Bool
  npmTestOk : Bool
  wranglerTomlExists : Bool
  wranglerDeployOk : Bool
deriving DecidableEq

/-- Embedding of DeploymentManager.preDeploymentChecks: both git queries
run and can only warn; only a missing package.json is fatal. -/
def preDeploymentChecks (cfg : EnvConfig) (w : DeployWorld) :
    List DeployEvent × Except String Unit :=
  let branchEvents :=
    match w.gitBranchResult with
    | some currentBranch =>
      if currentBranch ≠ cfg.branch then [DeployEvent.warn "branch mismatch"] else []
    | none => [DeployEvent.warn "failed to check git branch"]
  let statusEvents :=
    match w.gitStatusResult with
    | some status =>
      if status ≠ "" then [DeployEvent.warn "uncommitted changes"] else []
    | none => [DeployEvent.warn "failed to check git status"]
  let events :=
    [DeployEvent.stage "preDeploymentChecks", DeployEvent.cmd "git branch --show-current"]
      ++ branchEvents ++ [DeployEvent.cmd "git status --porcelain"] ++ statusEvents
  if w.packageJsonExists then (events, Except.ok ())
  else (events, Except.error "package.json not found in current directory")

/-- Embedding of DeploymentManager.buildProject: npm ci, npm run build,
then the build directory existence check; each failure is fatal. -/
def buildProject (w : DeployWorld) : List DeployEvent × Except String Unit :=
  let e0 := [DeployEvent.stage "buildProject", DeployEvent.cmd "npm ci"]
  if !w.npmCiOk then (e0, Except.error "Build failed")
  else
    let e1 := e0 ++ [DeployEvent.cmd "npm run build"]
    if !w.npmBuildOk then (e1, Except.error "Build failed")
    else if !w.buildDirExists then (e1, Except.error "Build directory not found")
    else (e1, Except.ok ())

/-- Embedding of DeploymentManager.runTests: a failing npm test is fatal
in the production environment and a warning elsewhere. -/
def runTests (environment : String) (w : DeployWorld) :
    List DeployEvent × Except String Unit :=
  let e := [DeployEvent.stage "runTests", DeployEvent.cmd "npm test"]
  if w.npmTestOk then (e, Except.ok ())
  else if environment = "production" then (e, Except.error "Tests failed")
  else (e ++ [DeployEvent.warn "tests failed, continuing for non-production"], Except.ok ())

/-- Embedding of DeploymentManager.deploy: with a wrangler.toml the
wrangler command for the environment runs and its failure is fatal;
without one only the placeholder logging happens. -/
def deployStage (environment : String) (w : DeployWorld) :
    List DeployEvent × Except String Unit :=
  let e0 := [DeployEvent.stage "deploy"]
  if w.wranglerTomlExists then
    let command :=
      if environment = "production" then
        "npx wrangler pages deploy ./dist --project-name=catipedia"
      else
        "npx wrangler pages deploy ./dist --project-name=catipedia-" ++ environment
    let e1 := e0 ++ [DeployEvent.cmd command]
    if w.wranglerDeployOk then (e1, Except.ok ())
    else (e1, Except.error "Deployment failed")
  else (e0, Except.ok ())

/-- Embedding of DeploymentManager.postDeployment, whose own failures are
only warned about. -/
def postDeployment : List DeployEvent × Except String Unit :=
  ([DeployEvent.stage "postDeployment"], Except.ok ())

/-- Embedding of DeploymentManager.run: the stages in order, aborting
with exit code 1 at the first fatal error. -/
def runDeploy (environment : String) (cfg : EnvConfig) (w : DeployWorld) :
    List DeployEvent × Nat :=
  let p1 := preDeploymentChecks cfg w
  match p1.2 with
  | Except.error _ => (p1.1, 1)
  | Except.ok _ =>
    let p2 := buildProject w
    match p2.2 with
    | Except.error _ => (p1.1 ++ p2.1, 1)
    | Except.ok _ =>
      let p3 := runTests environment w
      match p3.2 with
      | Except.error _ => (p1.1 ++ p2.1 ++ p3.1, 1)
      | Except.ok _ =>
        let p4 := deployStage environment w
        match p4.2 with
        | Except.error _ => (p1.1 ++ p2.1 ++ p3.1 ++ p4.1, 1)
        | Except.ok _ =>
          (p1.1 ++ p2.1 ++ p3.1 ++ p4.1 ++ postDeployment.1, 0)

/-- The environment taken from the argument vector: the first argument,
or development when it is absent or empty, the or-default idiom of the
source. -/
def deployArgEnv (args : List String) : String :=
  match args.headD "" with
  | "" => "development"
  | e => e

/-- Embedding of the deploy CLI: the positional argument defaults to
development; an environment without configuration makes the constructor
throw before any stage runs, so the process exits 1 with an empty trace. -/
def deployMain (args : List String) (w : DeployWorld) : List DeployEvent × Nat :=
  let environment := deployArgEnv args
  match CONFIG environment with
  | none => ([], 1)
  | some cfg => runDeploy environment cfg w

/-! ### Invariants and sample inputs used by the theorems -/

/-- Whitespace normal form: every whitespace character is a single space
and no two adjacent characters are both whitespace. -/
def WsOk (l : List Char) : Prop :=
  (∀ c ∈ l, isJsWs c = true → c = ' ') ∧
  List.Chain' (fun a b => isJsWs a = true → isJsWs b = false) l

/-- The head of a list, when present, is not whitespace. -/
def HeadNotWs (l : List Char) : Prop :=
  ∀ c, l.head? = some c → isJsWs c = false

/-- A sample output tree used to witness the hash generation claims. -/
def sampleDist : List (String × FsEntry) :=
  [("index.html", FsEntry.file [60, 104, 62]),
   ("css", FsEntry.dir [("style.css", FsEntry.file [98, 111, 100, 121])]),
   ("js", FsEntry.dir [("main.js", FsEntry.file [118, 97, 114]),
                       ("notes.txt", FsEntry.file [110])])]

/-- A sample world where every external command succeeds. -/
def okWorld : DeployWorld :=
  ⟨some "main", some "", true, true, true, true, true, true, true⟩

/-- A sample world where both git queries fail and npm test fails, while
everything else succeeds. -/
def gitFailWorld : DeployWorld :=
  ⟨none, none, true, true, true, true, false, true, true⟩

/-- A sample store where only the index page exists. -/
def sampleFs : FileMap :=
  fun p => if p = "./index.html" then some [60, 104, 62] else none

/-- The empty output store. -/
def emptyDist : FileMap := fun _ => none

/-! ### Supporting lemmas -/

theorem toLEBytes_length : ∀ (count v : Nat), (toLEBytes count v).length = count := by
  intro count
  induction count with
  | zero => intro _; rfl
  | succ k ih =>
    intro v
    simp only [toLEBytes, List.length_cons, ih]

theorem md5Bytes_length (msg : List Nat) : (md5Bytes msg).length = 16 := by
  simp [md5Bytes, toLEBytes_length]

theorem flatten_byteHex_length (l : List Nat) :
    ((l.map byteHex).flatten).length = 2 * l.length := by
  induction l with
  | nil => rfl
  | cons b rest ih => simp [byteHex, ih]; omega

theorem md5hex_length (msg : List Nat) : (md5hex msg).length = 32 := by
  rw [md5hex, flatten_byteHex_length, md5Bytes_length]

theorem hexChar_mem (n : Nat) (hn : n < 16) : hexChar n ∈ hexDigits :=
  List.mem_map.mpr ⟨n, List.mem_range.mpr hn, rfl⟩

theorem mem_md5hex (msg : List Nat) (c : Char) (hc : c ∈ md5hex msg) :
    c ∈ hexDigits := by
  simp only [md5hex, List.mem_flatten, List.mem_map] at hc
  obtain ⟨l, ⟨b, _, rfl⟩, hcl⟩ := hc
  simp only [byteHex, List.mem_cons, List.mem_singleton] at hcl
  rcases hcl with rfl | rfl | h
  · exact hexChar_mem _ (Nat.mod_lt _ (by norm_num))
  · exact hexChar_mem _ (Nat.mod_lt _ (by norm_num))
  · simp at h

set_option maxRecDepth 100000 in
/-- Sanity check of the MD5 embedding against the RFC 1321 test vector
for the empty message. -/
theorem md5hex_empty_vector :
    md5hex [] = String.toList "d41d8cd98f00b204e9800998ecf8427e" := by decide

/-! ### Claim theorems -/

/-- C4: for any file content, the digest recorded by generateHashes is
exactly 8 characters, all of them lowercase hexadecimal digits, equals
the first 8 hex characters of the MD5 digest of the bytes, and is
deterministic in the content. -/
theorem hash_digest_shape (content : List Nat) :
    (md5hex8 content).length = 8 ∧
    (∀ c ∈ md5hex8 content, c ∈ hexDigits) ∧
    md5hex8 content = (md5hex content).take 8 ∧
    (∀ content2 : List Nat, content = content2 → md5hex8 content = md5hex8 content2) := by
  refine ⟨?_, ?_, rfl, ?_⟩
  · simp [md5hex8, md5hex_length]
  · intro c hc
    exact mem_md5hex content c (List.mem_of_mem_take hc)
  · intro content2 h
    rw [h]

/-- C6: with cleaning enabled, cleanBuild always succeeds and leaves the
output directory existing and empty, whatever was there before,
including nothing at all. -/
theorem cleanBuild_leaves_empty_dir (d : Option FsEntry) :
    cleanBuild true d = Except.ok (some (FsEntry.dir [])) := by
  cases d with
  | none => rfl
  | some e => cases e <;> rfl

/-- C2: an unrecognized environment name makes the deploy process exit
nonzero with an empty trace, hence before any external command runs,
and an omitted positional argument selects the development environment
and its configuration. -/
theorem deploy_invalid_env_exits_early (args : List String) (w : DeployWorld) :
    (¬(deployArgEnv args = "development" ∨ deployArgEnv args = "staging" ∨
        deployArgEnv args = "production") →
      deployMain args w = ([], 1)) ∧
    (args = [] →
      deployMain args w =
        runDeploy "development" ⟨"./dist", "dev.catipedia.com", "develop"⟩ w) := by
  constructor
  · intro h
    push_neg at h
    obtain ⟨h1, h2, h3⟩ := h
    have hc : CONFIG (deployArgEnv args) = none := by
      unfold CONFIG
      rw [if_neg h1, if_neg h2, if_neg h3]
    simp only [deployMain]
    rw [hc]
  · rintro rfl
    rfl

/-- Witness for C2 at the unrecognized environment qa and at the empty
argument list. -/
theorem deploy_invalid_env_exits_early_witness :
    deployMain ["qa"] okWorld = ([], 1) ∧
    deployMain [] okWorld =
      runDeploy "development" ⟨"./dist", "dev.catipedia.com", "develop"⟩ okWorld :=
  ⟨(deploy_invalid_env_exits_early ["qa"] okWorld).1 (by decide),
   (deploy_invalid_env_exits_early [] okWorld).2 rfl⟩

/-- C9: the build enters production mode whenever NODE_ENV is
production, even with no CLI flag at all, and hash generation then
produces its artifact. -/
theorem production_mode_via_node_env (args : List String) (nodeEnv : Option String)
    (dist : List (String × FsEntry)) (h : nodeEnv = some "production") :
    buildIsProduction args nodeEnv = true ∧
    (generateHashes (buildIsProduction args nodeEnv) dist).isSome = true := by
  subst h
  have hb : buildIsProduction args (some "production") = true := by
    simp [buildIsProduction]
  refine ⟨hb, ?_⟩
  rw [hb]
  simp [generateHashes]

/-- Witness for C9 with an empty argument list. -/
theorem production_mode_via_node_env_witness :
    buildIsProduction [] (some "production") = true ∧
    (generateHashes (buildIsProduction [] (some "production")) sampleDist).isSome = true :=
  production_mode_via_node_env [] (some "production") sampleDist rfl

theorem copyFilesList_eq_run (fs : FileMap) (pairs : List (String × String)) (dist : FileMap) :
    copyFilesList fs pairs dist = Except.ok (copyRun fs pairs dist) := by
  induction pairs generalizing dist with
  | nil => rfl
  | cons pr rest ih =>
    obtain ⟨src, dest⟩ := pr
    cases hfs : fs src with
    | some c =>
      have hs : existsSyncF fs src = true := by simp [existsSyncF, hfs]
      simp [copyFilesList, copyRun, hs, hfs, copyFileSyncM, ih]
    | none =>
      have hs : existsSyncF fs src = false := by simp [existsSyncF, hfs]
      simp [copyFilesList, copyRun, hs, hfs, ih]

theorem copyRun_notdest (fs : FileMap) (pairs : List (String × String)) (dist : FileMap)
    (d : String) (hd : d ∉ pairs.map Prod.snd) : copyRun fs pairs dist d = dist d := by
  induction pairs generalizing dist with
  | nil => rfl
  | cons pr rest ih =>
    obtain ⟨src, dest⟩ := pr
    simp only [List.map_cons, List.mem_cons] at hd
    push_neg at hd
    obtain ⟨hd1, hd2⟩ := hd
    rw [copyRun, ih _ hd2]
    cases hfs : fs src <;> simp [hd1]

theorem copyRun_mem (fs : FileMap) (pairs : List (String × String)) (dist : FileMap)
    (s d : String) (hnd : (pairs.map Prod.snd).Nodup) (hmem : (s, d) ∈ pairs) :
    copyRun fs pairs dist d =
      match fs s with
      | some c => some c
      | none => dist d := by
  induction pairs generalizing dist with
  | nil => simp at hmem
  | cons pr rest ih =>
    obtain ⟨src, dest⟩ := pr
    simp only [List.map_cons, List.nodup_cons] at hnd
    obtain ⟨hdn, hnd2⟩ := hnd
    rcases List.mem_cons.mp hmem with heq | hmem2
    · obtain ⟨rfl, rfl⟩ := Prod.mk.injEq _ _ _ _ ▸ heq
      rw [copyRun, copyRun_notdest fs rest _ _ hdn]
      cases hfs : fs s <;> simp [hfs]
    · have hd_in : d ∈ rest.map Prod.snd := List.mem_map.mpr ⟨(s, d), hmem2, rfl⟩
      have hne : d ≠ dest := fun h => hdn (h ▸ hd_in)
      rw [copyRun, ih _ hnd2 hmem2]
      cases hfs : fs s <;> cases hsrc : fs src <;> simp [hne]

/-- C7: the static copier finishes without error on its pair list even
when sources are missing; a pair whose source exists is copied to its
destination and a pair whose source is missing leaves its destination
entry exactly as before. -/
theorem copyStaticFiles_skips_missing (fs dist0 : FileMap) (s d : String)
    (hmem : (s, d) ∈ staticFiles) :
    ∃ r, copyStaticFiles fs dist0 = Except.ok r ∧
      (∀ c, fs s = some c → r d = some c) ∧
      (fs s = none → r d = dist0 d) := by
  refine ⟨copyRun fs staticFiles dist0, copyFilesList_eq_run fs staticFiles dist0, ?_, ?_⟩
  · intro c hc
    rw [copyRun_mem fs staticFiles dist0 s d (by decide) hmem, hc]
  · intro hc
    rw [copyRun_mem fs staticFiles dist0 s d (by decide) hmem, hc]

/-- Witness for C7 on a store holding only the index page, checked at
the article pair whose source is missing. -/
theorem copyStaticFiles_skips_missing_witness :
    ∃ r, copyStaticFiles sampleFs emptyDist = Except.ok r ∧
      (∀ c, sampleFs "./article.html" = some c → r "article.html" = some c) ∧
      (sampleFs "./article.html" = none → r "article.html" = emptyDist "article.html") :=
  copyStaticFiles_skips_missing sampleFs emptyDist "./article.html" "article.html" (by decide)

/-- C8: when package.json exists, the pre-deployment checks succeed for
every outcome of the two git queries, including failing git commands
and mismatched branches, and the run then enters the build stage. -/
theorem git_check_failures_warn_only (environment : String) (cfg : EnvConfig)
    (w : DeployWorld) (hpj : w.packageJsonExists = true) :
    (preDeploymentChecks cfg w).2 = Except.ok () ∧
    DeployEvent.stage "buildProject" ∈ (runDeploy environment cfg w).1 := by
  obtain ⟨gb, gs, pj, ci, nb, bd, nt, wt, wd⟩ := w
  simp only at hpj
  subst hpj
  have h1 : (preDeploymentChecks cfg ⟨gb, gs, true, ci, nb, bd, nt, wt, wd⟩).2 =
      Except.ok () := by
    simp [preDeploymentChecks]
  refine ⟨h1, ?_⟩
  by_cases henv : environment = "production" <;>
    cases ci <;> cases nb <;> cases bd <;> cases nt <;> cases wt <;> cases wd <;>
    simp [runDeploy, preDeploymentChecks, buildProject, runTests, deployStage,
      postDeployment, henv]

/-- Witness for C8 in a world where both git commands fail. -/
theorem git_check_failures_warn_only_witness :
    (preDeploymentChecks ⟨"./dist", "dev.catipedia.com", "develop"⟩ gitFailWorld).2 =
      Except.ok () ∧
    DeployEvent.stage "buildProject" ∈
      (runDeploy "development" ⟨"./dist", "dev.catipedia.com", "develop"⟩ gitFailWorld).1 :=
  git_check_failures_warn_only "development" ⟨"./dist", "dev.catipedia.com", "develop"⟩
    gitFailWorld rfl

/-- C3: with the earlier steps succeeding and npm test failing, a
production deploy exits with code 1 and never enters the deployment
stage, while a development or staging deploy still enters it. -/
theorem deploy_test_failure_gating (w : DeployWorld) (environment : String)
    (hpj : w.packageJsonExists = true) (hci : w.npmCiOk = true)
    (hnb : w.npmBuildOk = true) (hbd : w.buildDirExists = true)
    (hnt : w.npmTestOk = false) :
    ((deployMain ["production"] w).2 = 1 ∧
      DeployEvent.stage "deploy" ∉ (deployMain ["production"] w).1) ∧
    ((environment = "development" ∨ environment = "staging") →
      DeployEvent.stage "deploy" ∈ (deployMain [environment] w).1) := by
  obtain ⟨gb, gs, pj, ci, nb, bd, nt, wt, wd⟩ := w
  simp only at hpj hci hnb hbd hnt
  subst hpj hci hnb hbd hnt
  constructor
  · cases gb <;> cases gs <;>
      simp [deployMain, deployArgEnv, CONFIG, runDeploy, preDeploymentChecks, buildProject,
        runTests, deployStage, postDeployment]
  · rintro (rfl | rfl) <;> cases gb <;> cases gs <;> cases wt <;> cases wd <;>
      simp [deployMain, deployArgEnv, CONFIG, runDeploy, preDeploymentChecks, buildProject,
        runTests, deployStage, postDeployment]

/-- Witness for C3 in a world with a failing npm test. -/
theorem deploy_test_failure_gating_witness :
    (deployMain ["production"] gitFailWorld).2 = 1 ∧
    DeployEvent.stage "deploy" ∈ (deployMain ["development"] gitFailWorld).1 :=
  ⟨(deploy_test_failure_gating gitFailWorld "development" rfl rfl rfl rfl rfl).1.1,
   (deploy_test_failure_gating gitFailWorld "development" rfl rfl rfl rfl rfl).2
     (Or.inl rfl)⟩

/-! ### Length bounds for the minifier substitutions, claim C10 -/

theorem dropToClose_length :
    ∀ (l l2 : List Char), dropToClose l = some l2 → l2.length + 2 ≤ l.length := by
  intro l
  induction l using dropToClose.induct with
  | case1 => intro l2 hh; simp [dropToClose] at hh
  | case2 c => intro l2 hh; simp [dropToClose] at hh
  | case3 c1 c2 r hcond =>
    intro l2 hh
    simp only [dropToClose] at hh
    rw [if_pos hcond] at hh
    cases hh
    simp
  | case4 c1 c2 r hcond ih =>
    intro l2 hh
    simp only [dropToClose] at hh
    rw [if_neg hcond] at hh
    have := ih l2 hh
    simp only [List.length_cons] at this ⊢
    omega

theorem dropWhile_length_le (p : Char → Bool) (l : List Char) :
    (l.dropWhile p).length ≤ l.length :=
  (List.dropWhile_sublist p).length_le

theorem skipWs_length (l : List Char) : (skipWs l).length ≤ l.length :=
  (List.dropWhile_sublist isJsWs).length_le

theorem skipToLineEnd_length (l : List Char) : (skipToLineEnd l).length ≤ l.length :=
  (List.dropWhile_sublist (fun c => !isLineTerm c)).length_le

theorem removeBlockComments_length (l : List Char) :
    (removeBlockComments l).length ≤ l.length := by
  induction l using removeBlockComments.induct with
  | case1 => simp [removeBlockComments]
  | case2 rest rest2 h ih =>
    simp only [removeBlockComments]
    split
    all_goals rename_i hx
    all_goals rw [h] at hx
    all_goals cases hx
    have := dropToClose_length rest rest2 h
    simp only [List.length_cons]
    omega
  | case3 rest h =>
    simp only [removeBlockComments]
    split
    all_goals rename_i hx
    all_goals rw [h] at hx
    all_goals cases hx
  | case4 c rest h1 ih =>
    rw [removeBlockComments]
    · simp only [List.length_cons]
      omega
    · exact h1

theorem removeLineComments_length (l : List Char) :
    (removeLineComments l).length ≤ l.length := by
  induction l using removeLineComments.induct with
  | case1 => simp [removeLineComments]
  | case2 rest ih =>
    simp only [removeLineComments]
    have := skipToLineEnd_length rest
    simp only [List.length_cons]
    omega
  | case3 c rest h1 ih =>
    rw [removeLineComments]
    · simp only [List.length_cons]
      omega
    · exact h1

theorem collapseWs_length (l : List Char) : (collapseWs l).length ≤ l.length := by
  induction l using collapseWs.induct with
  | case1 => simp [collapseWs]
  | case2 c rest h ih =>
    simp only [collapseWs]
    rw [if_pos h]
    have := skipWs_length rest
    simp only [List.length_cons]
    omega
  | case3 c rest h ih =>
    simp only [collapseWs]
    rw [if_neg h]
    simp only [List.length_cons]
    omega

theorem afterWsClose_length (l : List Char) : (afterWsClose l).length ≤ l.length := by
  unfold afterWsClose
  have h1 := skipWs_length l
  have h2 := List.length_drop 1 (skipWs l)
  omega

theorem afterWsBrace_length (l : List Char) : (afterWsBrace l).length ≤ l.length := by
  unfold afterWsBrace
  have h1 := skipWs_length l
  have h2 := List.length_drop 1 (skipWs l)
  have h3 := skipWs_length ((skipWs l).drop 1)
  omega

theorem semiBraceClean_length (l : List Char) :
    (semiBraceClean l).length ≤ l.length := by
  induction l using semiBraceClean.induct with
  | case1 => simp [semiBraceClean]
  | case2 rest h ih =>
    simp only [semiBraceClean]
    rw [if_pos trivial, if_pos h]
    have := afterWsClose_length rest
    simp only [List.length_cons]
    omega
  | case3 rest h ih =>
    simp only [semiBraceClean]
    rw [if_pos trivial, if_neg h]
    simp only [List.length_cons]
    omega
  | case4 c rest h ih =>
    simp only [semiBraceClean]
    rw [if_neg h]
    simp only [List.length_cons]
    omega

theorem braceClean_length (l : List Char) : (braceClean l).length ≤ l.length := by
  induction l using braceClean.induct with
  | case1 => simp [braceClean]
  | case2 rest ih =>
    simp only [braceClean]
    rw [if_pos trivial]
    have := skipWs_length rest
    simp only [List.length_cons]
    omega
  | case3 c rest h1 h2 h3 ih =>
    simp only [braceClean]
    rw [if_neg h1, if_pos h2, if_pos h3]
    have := afterWsBrace_length rest
    simp only [List.length_cons]
    omega
  | case4 c rest h1 h2 h3 ih =>
    simp only [braceClean]
    rw [if_neg h1, if_pos h2, if_neg h3]
    simp only [List.length_cons]
    omega
  | case5 c rest h1 h2 ih =>
    simp only [braceClean]
    rw [if_neg h1, if_neg h2]
    simp only [List.length_cons]
    omega

theorem semiClean_length (l : List Char) : (semiClean l).length ≤ l.length := by
  induction l using semiClean.induct with
  | case1 => simp [semiClean]
  | case2 rest ih =>
    simp only [semiClean]
    rw [if_pos trivial]
    have := skipWs_length rest
    simp only [List.length_cons]
    omega
  | case3 c rest h ih =>
    simp only [semiClean]
    rw [if_neg h]
    simp only [List.length_cons]
    omega

theorem trimChars_length (l : List Char) : (trimChars l).length ≤ l.length := by
  unfold trimChars List.rdropWhile
  have h1 := skipWs_length l
  have h2 := dropWhile_length_le isJsWs (skipWs l).reverse
  simp only [List.length_reverse] at h2 ⊢
  omega

/-- C10: every substitution applied by the two minifiers is length
non-increasing, and so are minifyCSS and minifyJS as a whole. -/
theorem minify_length_nonincreasing (s : List Char) :
    (removeBlockComments s).length ≤ s.length ∧
    (removeLineComments s).length ≤ s.length ∧
    (collapseWs s).length ≤ s.length ∧
    (semiBraceClean s).length ≤ s.length ∧
    (braceClean s).length ≤ s.length ∧
    (semiClean s).length ≤ s.length ∧
    (trimChars s).length ≤ s.length ∧
    (minifyCSS s).length ≤ s.length ∧
    (minifyJS s).length ≤ s.length := by
  refine ⟨removeBlockComments_length s, removeLineComments_length s, collapseWs_length s,
    semiBraceClean_length s, braceClean_length s, semiClean_length s, trimChars_length s,
    ?_, ?_⟩
  · unfold minifyCSS
    calc (trimChars (semiClean (braceClean (semiBraceClean (collapseWs
          (removeBlockComments s)))))).length
        ≤ (semiClean (braceClean (semiBraceClean (collapseWs
          (removeBlockComments s))))).length := trimChars_length _
      _ ≤ (braceClean (semiBraceClean (collapseWs (removeBlockComments s)))).length :=
          semiClean_length _
      _ ≤ (semiBraceClean (collapseWs (removeBlockComments s))).length := braceClean_length _
      _ ≤ (collapseWs (removeBlockComments s)).length := semiBraceClean_length _
      _ ≤ (removeBlockComments s).length := collapseWs_length _
      _ ≤ s.length := removeBlockComments_length s
  · unfold minifyJS
    calc (trimChars (semiBraceClean (collapseWs (removeLineComments
          (removeBlockComments s))))).length
        ≤ (semiBraceClean (collapseWs (removeLineComments
          (removeBlockComments s)))).length := trimChars_length _
      _ ≤ (collapseWs (removeLineComments (removeBlockComments s))).length :=
          semiBraceClean_length _
      _ ≤ (removeLineComments (removeBlockComments s)).length := collapseWs_length _
      _ ≤ (removeBlockComments s).length := removeLineComments_length _
      _ ≤ s.length := removeBlockComments_length s

/-! ### The whitespace normal form, claim C5 -/

theorem wsOk_nil : WsOk [] := ⟨by simp, List.chain'_nil⟩

theorem wsOk_tail {c : Char} {l : List Char} (h : WsOk (c :: l)) : WsOk l :=
  ⟨fun x hx hw => h.1 x (List.mem_cons_of_mem _ hx) hw, h.2.tail⟩

theorem wsOk_dropWhile (p : Char → Bool) {l : List Char} (h : WsOk l) :
    WsOk (l.dropWhile p) := by
  induction l with
  | nil => simpa using h
  | cons c rest ih =>
    rw [List.dropWhile_cons]
    split
    · exact ih (wsOk_tail h)
    · exact h

theorem wsOk_skipWs {l : List Char} (h : WsOk l) : WsOk (skipWs l) :=
  wsOk_dropWhile isJsWs h

theorem wsOk_drop_one {l : List Char} (h : WsOk l) : WsOk (l.drop 1) := by
  cases l with
  | nil => simpa using h
  | cons c rest => exact wsOk_tail h

theorem wsOk_cons_of_head {c : Char} {l : List Char}
    (hc : isJsWs c = true → c = ' ' ∧ HeadNotWs l) (h : WsOk l) : WsOk (c :: l) := by
  constructor
  · intro x hx hw
    rcases List.mem_cons.mp hx with rfl | hx2
    · exact (hc hw).1
    · exact h.1 x hx2 hw
  · rw [List.chain'_cons']
    refine ⟨?_, h.2⟩
    intro b hb hwc
    exact (hc hwc).2 b hb

theorem wsOk_cons_notWs {c : Char} {l : List Char} (hc : isJsWs c = false)
    (h : WsOk l) : WsOk (c :: l) :=
  wsOk_cons_of_head (fun hw => absurd hw (by simp [hc])) h

theorem headNotWs_nil : HeadNotWs [] := by
  intro c hc
  simp at hc

theorem headNotWs_cons {c : Char} {l : List Char} (h : isJsWs c = false) :
    HeadNotWs (c :: l) := by
  intro x hx
  simp only [List.head?_cons, Option.some.injEq] at hx
  subst hx
  exact h

theorem headNotWs_skipWs (l : List Char) : HeadNotWs (skipWs l) := by
  unfold skipWs
  induction l with
  | nil => exact headNotWs_nil
  | cons c rest ih =>
    rw [List.dropWhile_cons]
    split
    · exact ih
    · rename_i hfalse
      exact headNotWs_cons (by revert hfalse; cases isJsWs c <;> simp)

theorem collapseWs_headNotWs {l : List Char} (h : HeadNotWs l) :
    HeadNotWs (collapseWs l) := by
  cases l with
  | nil =>
    simp only [collapseWs]
    exact headNotWs_nil
  | cons c rest =>
    have hc : isJsWs c = false := h c rfl
    simp only [collapseWs]
    rw [if_neg (by simp [hc])]
    exact headNotWs_cons hc

theorem semiBraceClean_headNotWs {l : List Char} (h : HeadNotWs l) :
    HeadNotWs (semiBraceClean l) := by
  cases l with
  | nil =>
    simp only [semiBraceClean]
    exact headNotWs_nil
  | cons c rest =>
    simp only [semiBraceClean]
    by_cases hsemi : c = ';'
    · rw [if_pos hsemi]
      by_cases hw : wsThenClose rest
      · rw [if_pos hw]
        exact headNotWs_cons (by decide)
      · rw [if_neg hw]
        exact headNotWs_cons (by decide)
    · rw [if_neg hsemi]
      exact headNotWs_cons (h c rfl)

theorem braceClean_headNotWs {l : List Char} (h : HeadNotWs l) :
    HeadNotWs (braceClean l) := by
  cases l with
  | nil =>
    simp only [braceClean]
    exact headNotWs_nil
  | cons c rest =>
    have hc : isJsWs c = false := h c rfl
    simp only [braceClean]
    by_cases hbr : c = braceOpen
    · rw [if_pos hbr]
      exact headNotWs_cons (by decide)
    · rw [if_neg hbr, if_neg (by simp [hc])]
      exact headNotWs_cons hc

theorem semiClean_headNotWs {l : List Char} (h : HeadNotWs l) :
    HeadNotWs (semiClean l) := by
  cases l with
  | nil =>
    simp only [semiClean]
    exact headNotWs_nil
  | cons c rest =>
    simp only [semiClean]
    by_cases hsemi : c = ';'
    · rw [if_pos hsemi]
      exact headNotWs_cons (by decide)
    · rw [if_neg hsemi]
      exact headNotWs_cons (h c rfl)

theorem headNotWs_of_wsOk_cons {c : Char} {l : List Char} (h : WsOk (c :: l))
    (hwc : isJsWs c = true) : HeadNotWs l := by
  intro b hb
  exact (List.chain'_cons'.mp h.2).1 b hb hwc

theorem collapseWs_wsOk (l : List Char) : WsOk (collapseWs l) := by
  induction l using collapseWs.induct with
  | case1 =>
    simp only [collapseWs]
    exact wsOk_nil
  | case2 c rest h ih =>
    simp only [collapseWs]
    rw [if_pos h]
    refine wsOk_cons_of_head ?_ ih
    intro _
    exact ⟨rfl, collapseWs_headNotWs (headNotWs_skipWs rest)⟩
  | case3 c rest h ih =>
    simp only [collapseWs]
    rw [if_neg h]
    exact wsOk_cons_notWs (by revert h; cases isJsWs c <;> simp) ih

theorem semiBraceClean_wsOk (l : List Char) (h : WsOk l) :
    WsOk (semiBraceClean l) := by
  induction l using semiBraceClean.induct with
  | case1 =>
    simp only [semiBraceClean]
    exact wsOk_nil
  | case2 rest hw ih =>
    simp only [semiBraceClean]
    rw [if_pos trivial, if_pos hw]
    have h2 : WsOk (afterWsClose rest) := by
      unfold afterWsClose
      exact wsOk_drop_one (wsOk_skipWs (wsOk_tail h))
    exact wsOk_cons_notWs (by decide) (ih h2)
  | case3 rest hw ih =>
    simp only [semiBraceClean]
    rw [if_pos trivial, if_neg hw]
    exact wsOk_cons_notWs (by decide) (ih (wsOk_tail h))
  | case4 c rest hne ih =>
    simp only [semiBraceClean]
    rw [if_neg hne]
    refine wsOk_cons_of_head ?_ (ih (wsOk_tail h))
    intro hwc
    exact ⟨h.1 c (List.mem_cons_self _ _) hwc,
      semiBraceClean_headNotWs (headNotWs_of_wsOk_cons h hwc)⟩

theorem braceClean_wsOk (l : List Char) (h : WsOk l) : WsOk (braceClean l) := by
  induction l using braceClean.induct with
  | case1 =>
    simp only [braceClean]
    exact wsOk_nil
  | case2 rest ih =>
    simp only [braceClean]
    rw [if_pos trivial]
    exact wsOk_cons_notWs (by decide) (ih (wsOk_skipWs (wsOk_tail h)))
  | case3 c rest h1 h2 h3 ih =>
    simp only [braceClean]
    rw [if_neg h1, if_pos h2, if_pos h3]
    have h4 : WsOk (afterWsBrace rest) := by
      unfold afterWsBrace
      exact wsOk_skipWs (wsOk_drop_one (wsOk_skipWs (wsOk_tail h)))
    exact wsOk_cons_notWs (by decide) (ih h4)
  | case4 c rest h1 h2 h3 ih =>
    simp only [braceClean]
    rw [if_neg h1, if_pos h2, if_neg h3]
    refine wsOk_cons_of_head ?_ (ih (wsOk_tail h))
    intro hwc
    exact ⟨h.1 c (List.mem_cons_self _ _) hwc,
      braceClean_headNotWs (headNotWs_of_wsOk_cons h hwc)⟩
  | case5 c rest h1 h2 ih =>
    simp only [braceClean]
    rw [if_neg h1, if_neg h2]
    exact wsOk_cons_notWs (by revert h2; cases isJsWs c <;> simp) (ih (wsOk_tail h))

theorem semiClean_wsOk (l : List Char) (h : WsOk l) : WsOk (semiClean l) := by
  induction l using semiClean.induct with
  | case1 =>
    simp only [semiClean]
    exact wsOk_nil
  | case2 rest ih =>
    simp only [semiClean]
    rw [if_pos trivial]
    exact wsOk_cons_notWs (by decide) (ih (wsOk_skipWs (wsOk_tail h)))
  | case3 c rest hne ih =>
    simp only [semiClean]
    rw [if_neg hne]
    refine wsOk_cons_of_head ?_ (ih (wsOk_tail h))
    intro hwc
    exact ⟨h.1 c (List.mem_cons_self _ _) hwc,
      semiClean_headNotWs (headNotWs_of_wsOk_cons h hwc)⟩

theorem wsOk_reverse {l : List Char} (h : WsOk l) : WsOk l.reverse := by
  obtain ⟨h1, h2⟩ := h
  constructor
  · intro c hc
    exact h1 c (List.mem_reverse.mp hc)
  · rw [List.chain'_reverse]
    refine List.Chain'.imp ?_ h2
    intro a b hab hwb
    cases ha : isJsWs a with
    | false => rfl
    | true => exact absurd hwb (by simp [hab ha])

theorem wsOk_rdropWhile {l : List Char} (h : WsOk l) :
    WsOk (List.rdropWhile isJsWs l) := by
  unfold List.rdropWhile
  exact wsOk_reverse (wsOk_dropWhile _ (wsOk_reverse h))

theorem wsOk_trimChars {l : List Char} (h : WsOk l) : WsOk (trimChars l) := by
  unfold trimChars
  exact wsOk_rdropWhile (wsOk_skipWs h)

theorem minifyCSS_wsOk (s : List Char) : WsOk (minifyCSS s) := by
  unfold minifyCSS
  exact wsOk_trimChars (semiClean_wsOk _ (braceClean_wsOk _ (semiBraceClean_wsOk _
    (collapseWs_wsOk _))))

theorem minifyJS_wsOk (s : List Char) : WsOk (minifyJS s) := by
  unfold minifyJS
  exact wsOk_trimChars (semiBraceClean_wsOk _ (collapseWs_wsOk _))

theorem collapseWs_id_of_wsOk (l : List Char) (h : WsOk l) : collapseWs l = l := by
  induction l using collapseWs.induct with
  | case1 => simp [collapseWs]
  | case2 c rest hws ih =>
    simp only [collapseWs]
    rw [if_pos hws]
    have hc : c = ' ' := h.1 c (List.mem_cons_self _ _) hws
    have hrest : skipWs rest = rest := by
      cases rest with
      | nil => rfl
      | cons b r =>
        have hb : isJsWs b = false := headNotWs_of_wsOk_cons h hws b rfl
        unfold skipWs
        rw [List.dropWhile_cons, if_neg (by simp [hb])]
    have h3 : WsOk (skipWs rest) := by
      rw [hrest]
      exact wsOk_tail h
    rw [ih h3, hrest, hc]
  | case3 c rest hws ih =>
    simp only [collapseWs]
    rw [if_neg hws]
    rw [ih (wsOk_tail h)]

/-- C5: on the output of either minifier, a second application of the
whitespace-collapsing substitution changes nothing. -/
theorem minify_whitespace_collapse_idempotent (s : List Char) :
    collapseWs (minifyCSS s) = minifyCSS s ∧
    collapseWs (minifyJS s) = minifyJS s :=
  ⟨collapseWs_id_of_wsOk _ (minifyCSS_wsOk s),
   collapseWs_id_of_wsOk _ (minifyJS_wsOk s)⟩

/-! ### The hash map of generateHashes, claim C1 -/

theorem hashWalk_eq (pre : List String) (es : List (String × FsEntry)) :
    hashWalk pre es =
      ((allFilesWalk pre es).filter (fun t => endsCssJs t.2.1)).map
        (fun t => (t.1, md5hex8 t.2.2)) := by
  induction pre, es using allFilesWalk.induct with
  | case1 pre => simp [hashWalk, allFilesWalk]
  | case2 pre n c rest ih =>
    simp only [hashWalk, allFilesWalk, List.filter_cons]
    by_cases h : endsCssJs n
    · simp [h, ih]
    · simp [h, ih]
  | case3 pre n es2 rest ih1 ih2 =>
    simp [hashWalk, allFilesWalk, List.filter_append, ih1, ih2]

theorem allFilesWalk_shape (pre : List String) (es : List (String × FsEntry)) :
    ∀ t ∈ allFilesWalk pre es, ∃ n q, t.1 = pre ++ n :: q ∧ n ∈ es.map Prod.fst := by
  induction pre, es using allFilesWalk.induct with
  | case1 pre => simp [allFilesWalk]
  | case2 pre n c rest ih =>
    intro t ht
    simp only [allFilesWalk, List.mem_cons] at ht
    rcases ht with rfl | ht2
    · exact ⟨n, [], by simp, by simp⟩
    · obtain ⟨m, q, hq, hm⟩ := ih t ht2
      exact ⟨m, q, hq, by simp [hm]⟩
  | case3 pre n es2 rest ih1 ih2 =>
    intro t ht
    simp only [allFilesWalk, List.mem_append] at ht
    rcases ht with ht1 | ht2
    · obtain ⟨m, q, hq, hm⟩ := ih1 t ht1
      refine ⟨n, m :: q, ?_, by simp⟩
      rw [hq]
      simp
    · obtain ⟨m, q, hq, hm⟩ := ih2 t ht2
      exact ⟨m, q, hq, by simp [hm]⟩

theorem allFilesWalk_keys_nodup (pre : List String) (es : List (String × FsEntry))
    (hwf : wfEntries es = true) :
    ((allFilesWalk pre es).map (fun t => t.1)).Nodup := by
  induction pre, es using allFilesWalk.induct with
  | case1 => simp [allFilesWalk]
  | case2 pre n c rest ih =>
    rw [wfEntries] at hwf
    simp only [Bool.and_eq_true, Bool.not_eq_true'] at hwf
    obtain ⟨⟨hnc, _⟩, hrest⟩ := hwf
    have hnot : n ∉ rest.map Prod.fst := by
      intro hmem
      have h2 := List.elem_iff.mpr hmem
      rw [List.contains] at hnc
      rw [h2] at hnc
      cases hnc
    simp only [allFilesWalk, List.map_cons, List.nodup_cons]
    refine ⟨?_, ih hrest⟩
    intro hmem
    simp only [List.mem_map] at hmem
    obtain ⟨t, ht, heq⟩ := hmem
    obtain ⟨m, q, hq, hm⟩ := allFilesWalk_shape pre rest t ht
    rw [hq] at heq
    have hcancel : m :: q = [n] := List.append_cancel_left heq
    have : m = n := by
      cases hcancel
      rfl
    exact hnot (this ▸ hm)
  | case3 pre n es2 rest ih1 ih2 =>
    rw [wfEntries] at hwf
    simp only [Bool.and_eq_true, Bool.not_eq_true'] at hwf
    obtain ⟨⟨hnc, hwfe⟩, hrest⟩ := hwf
    rw [wfEntry] at hwfe
    have hnot : n ∉ rest.map Prod.fst := by
      intro hmem
      have h2 := List.elem_iff.mpr hmem
      rw [List.contains] at hnc
      rw [h2] at hnc
      cases hnc
    simp only [allFilesWalk, List.map_append]
    refine List.Nodup.append (ih1 hwfe) (ih2 hrest) ?_
    intro segs hl hr
    obtain ⟨t1, ht1, heq1⟩ := List.mem_map.mp hl
    obtain ⟨m1, q1, hq1, hm1⟩ := allFilesWalk_shape (pre ++ [n]) es2 t1 ht1
    obtain ⟨t2, ht2, heq2⟩ := List.mem_map.mp hr
    obtain ⟨m2, q2, hq2, hm2⟩ := allFilesWalk_shape pre rest t2 ht2
    have hsame : t1.1 = t2.1 := by rw [heq1, heq2]
    rw [hq1, hq2] at hsame
    have hsame2 : pre ++ n :: m1 :: q1 = pre ++ m2 :: q2 := by
      rw [← hsame]
      simp
    have hcancel : n :: m1 :: q1 = m2 :: q2 := List.append_cancel_left hsame2
    have hn : n = m2 := by
      cases hcancel
      rfl
    exact hnot (hn ▸ hm2)

/-- C1: the hashes artifact is produced exactly in production builds,
and the produced map lists, in walk order, one entry for every file
ending in .css or .js under the output tree, keyed by the path relative
to the output root and valued by the 8 character digest of the file
bytes; with distinct sibling names throughout the tree the keys are
pairwise distinct. -/
theorem hashes_artifact_iff_production (isProd : Bool) (dist : List (String × FsEntry)) :
    ((generateHashes isProd dist).isSome ↔ isProd = true) ∧
    (∀ m, generateHashes isProd dist = some m →
      m = ((allFilesWalk [] dist).filter (fun t => endsCssJs t.2.1)).map
            (fun t => (t.1, md5hex8 t.2.2)) ∧
      (wfEntries dist = true → (m.map (fun pr => pr.1)).Nodup)) := by
  constructor
  · cases isProd <;> simp [generateHashes]
  · intro m hm
    cases isProd with
    | false => simp [generateHashes] at hm
    | true =>
      simp only [generateHashes, Bool.not_true, Bool.false_eq_true, if_false,
        Option.some.injEq] at hm
      subst hm
      refine ⟨hashWalk_eq [] dist, ?_⟩
      intro hwf
      rw [hashWalk_eq, List.map_map]
      have hcomp : ((fun pr : List String × List Char => pr.1) ∘
          (fun t : List String × String × List Nat => (t.1, md5hex8 t.2.2))) =
          fun t : List String × String × List Nat => t.1 := rfl
      rw [hcomp]
      exact List.Nodup.sublist ((List.filter_sublist _).map _)
        (allFilesWalk_keys_nodup [] dist hwf)

/-- Witness for C1 on the sample output tree. -/
theorem hashes_artifact_iff_production_witness :
    wfEntries sampleDist = true ∧
    ((hashWalk [] sampleDist).map (fun pr => pr.1)).Nodup :=
  ⟨by simp [sampleDist, wfEntries, wfEntry],
   ((hashes_artifact_iff_production true sampleDist).2 (hashWalk [] sampleDist)
      (by simp [generateHashes])).2 (by simp [sampleDist, wfEntries, wfEntry])⟩

end Catipedia
